import Mathlib

/-!
# Weighted categorical sampler of SynthDicom's `convert_descbodypart.py`

The script `src/scripts/convert_descbodypart.py` rewrites `DescBodyPart.cs`,
replacing a `BucketList` per body-part key by a pair
`(int MaxWeight, (int CumulativeWeight, DescBodyPart Value)[] Items)` and a
binary-search helper `GetRandom`.  This file embeds the C# code the script
injects:

* `InitializeDescBodyParts` (lines 26-40 of the script): for each key it walks
  the `(item, probability)` pairs keeping a running `cumulative` sum
  (`cumulative += probability` on C# `int`, which is unchecked 32-bit
  arithmetic and therefore wraps), records `(cumulative, item)` and finally
  stores `(cumulative, list.ToArray())`.
* `GetRandom` (lines 45-59): draws `target = r.Next(MaxWeight)` and runs a
  lower-bound binary search over `Items`, returning `Items[left].Value`.

Machine integers are modelled as `Int` with explicit wrap at 2^32 into the
signed range; array accesses are `Option`-valued so an out-of-bounds access
(which throws in C#) surfaces as `none`.  The randomness source is external:
`GetRandom` is parametrised by the `target` value the source produced.
-/

namespace SynthDicom

/-- Signed 32-bit wrap-around, the behaviour of unchecked C# `int` addition:
the result is the representative of `x` modulo `2^32` in
`[-2^31, 2^31)`. -/
def int32wrap (x : Int) : Int :=
  (x + 2147483648) % 4294967296 - 2147483648

/-- The converted per-key data of `DescBodyPart.cs`:
`(int MaxWeight, (int CumulativeWeight, DescBodyPart Value)[] Items)`. -/
structure Sampler (α : Type) where
  MaxWeight : Int
  Items : List (Int × α)
deriving DecidableEq, Repr

/-- Construction-time errors named by the design document.  The generated C#
construction code contains no `throw` and no `checked` block, so the
embedding of construction below never produces one of these. -/
inductive ConstructionError
  | invalidInput
  | overflow
deriving DecidableEq, Repr

/-- Lookup-time error: C# `ReadOnlyDictionary` indexing throws
`KeyNotFoundException` for an absent key (the design's `UnknownKeyError`). -/
inductive LookupError
  | unknownKey
deriving DecidableEq, Repr

/-- The conversion loop of `InitializeDescBodyParts` for one key:
`int cumulative = 0; foreach ((item, probability)) { cumulative += probability;
list.Add((cumulative, item)); }` and finally `(cumulative, list.ToArray())`.
The accumulator addition wraps like C# `int`. -/
def convertLoop : List (α × Int) → Int → Int × List (Int × α)
  | [], c => (c, [])
  | (item, p) :: rest, c =>
    let c2 := int32wrap (c + p)
    let r := convertLoop rest c2
    (r.1, (c2, item) :: r.2)

/-- One key's converted data, started from `cumulative = 0`. -/
def mkSampler (pairs : List (α × Int)) : Sampler α :=
  let r := convertLoop pairs 0
  ⟨r.1, r.2⟩

/-- Construction including its (empty) failure channel: the generated C# code
performs no input validation and no overflow check, so every input is
accepted. -/
def initializeSampler (pairs : List (α × Int)) :
    Except ConstructionError (Sampler α) :=
  .ok (mkSampler pairs)

/-- The registry built by `InitializeDescBodyParts`: one converted entry per
key of the raw table, in order. -/
def InitializeDescBodyParts (raw : List (String × List (α × Int))) :
    List (String × Sampler α) :=
  raw.map fun kv => (kv.1, mkSampler kv.2)

/-- Dictionary lookup `d[key]`: the sampler of the first entry with the given
key, or `KeyNotFoundException` (`UnknownKeyError`) when absent. -/
def registryGet (reg : List (String × Sampler α)) (key : String) :
    Except LookupError (Sampler α) :=
  match reg.find? (fun kv => kv.1 == key) with
  | some kv => .ok kv.2
  | none => .error .unknownKey

/-- C# array indexing `Items[i]` with an `int` index: `none` models the
`IndexOutOfRangeException` thrown for an index outside `[0, length)`. -/
def getI (items : List (Int × α)) (i : Int) : Option (Int × α) :=
  if 0 ≤ i then items.get? i.toNat else none

/-- The binary-search loop of `GetRandom`:
`while (left < right) { int mid = left + (right - left) / 2;
if (Items[mid].CumulativeWeight <= target) left = mid + 1; else right = mid; }`
returning the final `left`, or `none` if an array access inside the loop is
out of bounds. -/
def GetRandomLoop (items : List (Int × α)) (target : Int)
    (left right : Int) : Option Int :=
  if h : left < right then
    let mid := left + (right - left) / 2
    match getI items mid with
    | none => none
    | some e =>
      if e.1 ≤ target then GetRandomLoop items target (mid + 1) right
      else GetRandomLoop items target left mid
  else
    some left
termination_by (right - left).toNat
decreasing_by
  all_goals omega

/-- The index `left` that `GetRandom` finally reads:
the loop started at `left = 0`, `right = Items.Length - 1`. -/
def GetRandomIdx (s : Sampler α) (target : Int) : Option Int :=
  GetRandomLoop s.Items target 0 ((s.Items.length : Int) - 1)

/-- `GetRandom data r` with the randomness source's draw `target` made an
explicit argument: run the binary-search loop and return
`Items[left].Value`; `none` models the exception of an out-of-bounds
access. -/
def GetRandom (s : Sampler α) (target : Int) : Option α :=
  match GetRandomIdx s target with
  | none => none
  | some l => (getI s.Items l).map Prod.snd

/-- The cumulative weight stored at index `i`, defaulting to `0` out of
range (used only to state hypotheses and invariants). -/
def cumAt (items : List (Int × α)) (i : Nat) : Int :=
  match items.get? i with
  | some e => e.1
  | none => 0

/-! ## Basic lemmas about the embedding -/

lemma int32wrap_eq_self {x : Int} (h1 : -2147483648 ≤ x)
    (h2 : x < 2147483648) : int32wrap x = x := by
  unfold int32wrap; omega

lemma int32wrap_range (x : Int) :
    -2147483648 ≤ int32wrap x ∧ int32wrap x < 2147483648 := by
  unfold int32wrap; omega

lemma int32wrap_add (a b : Int) :
    int32wrap (int32wrap a + b) = int32wrap (a + b) := by
  unfold int32wrap; omega

lemma convertLoop_length (pairs : List (α × Int)) (c : Int) :
    (convertLoop pairs c).2.length = pairs.length := by
  induction pairs generalizing c with
  | nil => rfl
  | cons hd tl ih =>
    obtain ⟨item, p⟩ := hd
    simp [convertLoop, ih]

lemma getI_eq_some (items : List (Int × α)) (i : Int)
    (h0 : 0 ≤ i) (hlen : i < (items.length : Int)) :
    ∃ e, getI items i = some e ∧ items.get? i.toNat = some e := by
  unfold getI
  rw [if_pos h0]
  match h : items.get? i.toNat with
  | some e => exact ⟨e, rfl, rfl⟩
  | none =>
    rw [List.get?_eq_none] at h
    omega

/-- The loop always terminates with `left ≤ l ≤ right` and never goes out of
bounds, for any start interval inside the array, no matter the stored
cumulative weights. -/
lemma GetRandomLoop_total (items : List (Int × α)) (target : Int) :
    ∀ (n : Nat) (left right : Int), (right - left).toNat ≤ n →
      0 ≤ left → left ≤ right → right < (items.length : Int) →
      ∃ l : Int, GetRandomLoop items target left right = some l ∧
        left ≤ l ∧ l ≤ right := by
  intro n
  induction n with
  | zero =>
    intro left right hn h0 hlr hrlen
    refine ⟨left, ?_, le_refl _, hlr⟩
    rw [GetRandomLoop]
    rw [dif_neg (by omega)]
  | succ n ih =>
    intro left right hn h0 hlr hrlen
    by_cases hlt : left < right
    · have hmid1 : left ≤ left + (right - left) / 2 := by omega
      have hmid2 : left + (right - left) / 2 < right := by omega
      obtain ⟨e, hget, -⟩ :=
        getI_eq_some items (left + (right - left) / 2)
          (by omega) (by omega)
      rw [GetRandomLoop, dif_pos hlt]
      simp only [hget]
      by_cases he : e.1 ≤ target
      · rw [if_pos he]
        obtain ⟨l, hl, hl1, hl2⟩ :=
          ih (left + (right - left) / 2 + 1) right (by omega) (by omega)
            (by omega) hrlen
        exact ⟨l, hl, by omega, hl2⟩
      · rw [if_neg he]
        obtain ⟨l, hl, hl1, hl2⟩ :=
          ih left (left + (right - left) / 2) (by omega) h0 (by omega)
            (by omega)
        exact ⟨l, hl, hl1, by omega⟩
    · refine ⟨left, ?_, le_refl _, hlr⟩
      rw [GetRandomLoop]
      rw [dif_neg hlt]

/-- Invariant-carrying version: when the cumulative weights are monotone
(non-strictly suffices), the interval invariant
`∀ i < left, cumAt i ≤ target` and `target < cumAt right` is preserved, so
the loop returns the leftmost index whose cumulative weight exceeds
`target`. -/
lemma GetRandomLoop_spec (items : List (Int × α)) (target : Int)
    (hmono : ∀ i j : Nat, i ≤ j → j < items.length →
      cumAt items i ≤ cumAt items j) :
    ∀ (n : Nat) (left right : Int), (right - left).toNat ≤ n →
      0 ≤ left → left ≤ right → right < (items.length : Int) →
      (∀ i : Nat, (i : Int) < left → cumAt items i ≤ target) →
      target < cumAt items right.toNat →
      ∃ l : Int, GetRandomLoop items target left right = some l ∧
        left ≤ l ∧ l ≤ right ∧ target < cumAt items l.toNat ∧
        ∀ i : Nat, (i : Int) < l → cumAt items i ≤ target := by
  intro n
  induction n with
  | zero =>
    intro left right hn h0 hlr hrlen hlo hhi
    have heq : left = right := by omega
    refine ⟨left, ?_, le_refl _, hlr, ?_, hlo⟩
    · rw [GetRandomLoop]
      rw [dif_neg (by omega)]
    · rw [heq]; exact hhi
  | succ n ih =>
    intro left right hn h0 hlr hrlen hlo hhi
    by_cases hlt : left < right
    · have hmid1 : left ≤ left + (right - left) / 2 := by omega
      have hmid2 : left + (right - left) / 2 < right := by omega
      obtain ⟨e, hget, hget?⟩ :=
        getI_eq_some items (left + (right - left) / 2)
          (by omega) (by omega)
      have hcum : cumAt items (left + (right - left) / 2).toNat = e.1 := by
        unfold cumAt
        rw [hget?]
      rw [GetRandomLoop, dif_pos hlt]
      simp only [hget]
      by_cases he : e.1 ≤ target
      · rw [if_pos he]
        have hlo' : ∀ i : Nat, (i : Int) < left + (right - left) / 2 + 1 →
            cumAt items i ≤ target := by
          intro i hi
          have hle : i ≤ (left + (right - left) / 2).toNat := by omega
          have := hmono i (left + (right - left) / 2).toNat hle (by omega)
          rw [hcum] at this
          exact le_trans this he
        obtain ⟨l, hl, hl1, hl2, hl3, hl4⟩ :=
          ih (left + (right - left) / 2 + 1) right (by omega) (by omega)
            (by omega) hrlen hlo' hhi
        exact ⟨l, hl, by omega, hl2, hl3, hl4⟩
      · rw [if_neg he]
        have hhi' : target < cumAt items (left + (right - left) / 2).toNat := by
          rw [hcum]; omega
        obtain ⟨l, hl, hl1, hl2, hl3, hl4⟩ :=
          ih left (left + (right - left) / 2) (by omega) h0 (by omega)
            (by omega) hlo hhi'
        exact ⟨l, hl, hl1, by omega, hl3, hl4⟩
    · have heq : left = right := by omega
      refine ⟨left, ?_, le_refl _, hlr, ?_, hlo⟩
      · rw [GetRandomLoop]
        rw [dif_neg hlt]
      · rw [heq]; exact hhi

/-- The leftmost index whose cumulative weight exceeds `target` is unique. -/
lemma leftmost_unique {items : List (Int × α)} {target : Int} {l l' : Int}
    (h0 : 0 ≤ l) (h0' : 0 ≤ l')
    (ha : target < cumAt items l.toNat)
    (hb : ∀ i : Nat, (i : Int) < l → cumAt items i ≤ target)
    (ha' : target < cumAt items l'.toNat)
    (hb' : ∀ i : Nat, (i : Int) < l' → cumAt items i ≤ target) :
    l = l' := by
  rcases lt_trichotomy l l' with h | h | h
  · have := hb' l.toNat (by omega)
    omega
  · exact h
  · have := hb l'.toNat (by omega)
    omega

/-- Index-monotonicity of `cumAt` from the adjacent strict chain. -/
lemma cumAt_strict_mono {items : List (Int × α)}
    (hc : List.Chain' (fun a b => a.1 < b.1) items) :
    ∀ i j : Nat, i < j → j < items.length → cumAt items i < cumAt items j := by
  intro i j
  induction j with
  | zero => omega
  | succ k ihk =>
    intro hij hj
    have hadj : cumAt items k < cumAt items (k + 1) := by
      rw [List.chain'_iff_get] at hc
      have := hc k (by omega)
      unfold cumAt
      rw [List.get?_eq_get (by omega : k < items.length),
        List.get?_eq_get (by omega : k + 1 < items.length)]
      exact this
    by_cases hik : i = k
    · rw [hik]; exact hadj
    · exact lt_trans (ihk (by omega) (by omega)) hadj

lemma cumAt_mono {items : List (Int × α)}
    (hc : List.Chain' (fun a b => a.1 < b.1) items) :
    ∀ i j : Nat, i ≤ j → j < items.length → cumAt items i ≤ cumAt items j := by
  intro i j hij hj
  rcases Nat.eq_or_lt_of_le hij with h | h
  · rw [h]
  · exact le_of_lt (cumAt_strict_mono hc i j h hj)

lemma cumAt_get? {items : List (Int × α)} {i : Nat} {e : Int × α}
    (h : items.get? i = some e) : cumAt items i = e.1 := by
  unfold cumAt
  rw [h]

lemma weights_sum_nonneg (pairs : List (α × Int))
    (hpos : ∀ p ∈ pairs, 0 < p.2) : 0 ≤ (pairs.map Prod.snd).sum := by
  induction pairs with
  | nil => simp
  | cons hd tl ih =>
    simp only [List.map_cons, List.sum_cons]
    have h1 := hpos hd (by simp)
    have h2 := ih (fun p hp => hpos p (by simp [hp]))
    omega

lemma take_sum_succ (pairs : List (α × Int)) :
    ∀ (i : Nat) (pv : α × Int), pairs.get? i = some pv →
      ((pairs.take (i + 1)).map Prod.snd).sum =
        ((pairs.take i).map Prod.snd).sum + pv.2 := by
  induction pairs with
  | nil => intro i pv h; simp at h
  | cons hd tl ih =>
    intro i pv h
    cases i with
    | zero =>
      simp only [List.get?] at h
      cases h
      simp
    | succ n =>
      have htl : tl.get? n = some pv := h
      simp only [List.take_succ_cons, List.map_cons, List.sum_cons,
        ih n pv htl]
      ring

/-- When every weight is positive and the total fits below `2^31`, the wrap
never fires: the conversion loop computes the exact running sums. -/
lemma convertLoop_exact (pairs : List (α × Int)) (c : Int)
    (hc : 0 ≤ c) (hpos : ∀ p ∈ pairs, 0 < p.2)
    (hb : c + (pairs.map Prod.snd).sum ≤ 2147483647) :
    (convertLoop pairs c).1 = c + (pairs.map Prod.snd).sum ∧
    ∀ (i : Nat) (pv : α × Int), pairs.get? i = some pv →
      (convertLoop pairs c).2.get? i =
        some (c + ((pairs.take (i + 1)).map Prod.snd).sum, pv.1) := by
  induction pairs generalizing c with
  | nil =>
    constructor
    · simp [convertLoop]
    · intro i pv h
      simp at h
  | cons hd tl ih =>
    obtain ⟨item, p⟩ := hd
    have hp : 0 < p := hpos (item, p) (by simp)
    have htl : 0 ≤ (tl.map Prod.snd).sum :=
      weights_sum_nonneg tl (fun q hq => hpos q (by simp [hq]))
    have hsum : (((item, p) :: tl).map Prod.snd).sum =
        p + (tl.map Prod.snd).sum := by simp
    have hwrap : int32wrap (c + p) = c + p := by
      apply int32wrap_eq_self <;> omega
    obtain ⟨ih1, ih2⟩ := ih (c + p) (by omega)
      (fun q hq => hpos q (by simp [hq])) (by omega)
    constructor
    · simp only [convertLoop, hwrap, ih1, hsum]
      ring
    · intro i pv h
      cases i with
      | zero =>
        simp only [List.get?] at h
        cases h
        simp [convertLoop, hwrap]
      | succ n =>
        have htln : tl.get? n = some pv := h
        have := ih2 n pv htln
        simp only [convertLoop, hwrap, List.get?, this,
          List.take_succ_cons, List.map_cons, List.sum_cons]
        congr 2
        ring

/-- Under the same no-overflow conditions the stored cumulative weights are
strictly increasing. -/
lemma mkSampler_chain (pairs : List (α × Int))
    (hpos : ∀ p ∈ pairs, 0 < p.2)
    (hb : (pairs.map Prod.snd).sum ≤ 2147483647) :
    List.Chain' (fun a b => a.1 < b.1) (mkSampler pairs).Items := by
  obtain ⟨-, hidx⟩ := convertLoop_exact pairs 0 (le_refl 0) hpos (by omega)
  have hlen : (mkSampler pairs).Items.length = pairs.length :=
    convertLoop_length pairs 0
  rw [List.chain'_iff_get]
  intro i hi
  have hi1 : i < pairs.length := by omega
  have hi2 : i + 1 < pairs.length := by omega
  have hpv1 : pairs.get? i = some (pairs.get ⟨i, hi1⟩) :=
    List.get?_eq_get hi1
  have hpv2 : pairs.get? (i + 1) = some (pairs.get ⟨i + 1, hi2⟩) :=
    List.get?_eq_get hi2
  have h1 := hidx i _ hpv1
  have h2 := hidx (i + 1) _ hpv2
  have hg1 : (mkSampler pairs).Items.get? i =
      some ((mkSampler pairs).Items.get ⟨i, by omega⟩) :=
    List.get?_eq_get (by omega)
  have hg2 : (mkSampler pairs).Items.get? (i + 1) =
      some ((mkSampler pairs).Items.get ⟨i + 1, by omega⟩) :=
    List.get?_eq_get (by omega)
  have he1 : (mkSampler pairs).Items.get ⟨i, by omega⟩ =
      (0 + ((pairs.take (i + 1)).map Prod.snd).sum,
        (pairs.get ⟨i, hi1⟩).1) := by
    have := hg1.symm.trans h1
    exact Option.some.inj this
  have he2 : (mkSampler pairs).Items.get ⟨i + 1, by omega⟩ =
      (0 + ((pairs.take (i + 2)).map Prod.snd).sum,
        (pairs.get ⟨i + 1, hi2⟩).1) := by
    have := hg2.symm.trans h2
    exact Option.some.inj this
  have hstep : ((pairs.take (i + 2)).map Prod.snd).sum =
      ((pairs.take (i + 1)).map Prod.snd).sum +
        (pairs.get ⟨i + 1, hi2⟩).2 :=
    take_sum_succ pairs (i + 1) _ hpv2
  have hposi : 0 < (pairs.get ⟨i + 1, hi2⟩).2 :=
    hpos _ (List.get?_mem hpv2)
  rw [he1, he2]
  simp only []
  omega

/-- Full characterization of the search result under the invariants: the
returned index is exactly the leftmost one whose cumulative weight exceeds
`target`. -/
lemma GetRandomIdx_eq_iff (s : Sampler α)
    (hne : s.Items ≠ [])
    (hchain : List.Chain' (fun a b => a.1 < b.1) s.Items)
    (target : Int)
    (hT : target < cumAt s.Items (s.Items.length - 1)) (l : Int) :
    GetRandomIdx s target = some l ↔
      0 ≤ l ∧ l < (s.Items.length : Int) ∧
      target < cumAt s.Items l.toNat ∧
      ∀ i : Nat, (i : Int) < l → cumAt s.Items i ≤ target := by
  have hlen : 1 ≤ s.Items.length := List.length_pos.mpr hne
  have hcast : (((s.Items.length : Int) - 1)).toNat = s.Items.length - 1 := by
    omega
  obtain ⟨l', hl', h0', h1', h2', h3'⟩ :=
    GetRandomLoop_spec s.Items target (cumAt_mono hchain)
      (((s.Items.length : Int) - 1) - 0).toNat 0 ((s.Items.length : Int) - 1)
      (le_refl _) (le_refl _) (by omega) (by omega)
      (by intro i hi; omega) (by rw [hcast]; exact hT)
  constructor
  · intro h
    unfold GetRandomIdx at h
    rw [hl'] at h
    have := Option.some.inj h
    subst this
    exact ⟨h0', by omega, h2', h3'⟩
  · rintro ⟨k0, k1, k2, k3⟩
    have : l = l' := leftmost_unique k0 h0' k2 k3 h2' h3'
    unfold GetRandomIdx
    rw [hl', this]

lemma take_sum_mono (pairs : List (α × Int))
    (hpos : ∀ p ∈ pairs, 0 < p.2) :
    ∀ k m : Nat, k ≤ m → m ≤ pairs.length →
      ((pairs.take k).map Prod.snd).sum ≤
        ((pairs.take m).map Prod.snd).sum := by
  intro k m
  induction m with
  | zero =>
    intro hkm _
    have hk : k = 0 := by omega
    rw [hk]
  | succ n ihm =>
    intro hkm hm
    rcases Nat.eq_or_lt_of_le hkm with h | h
    · rw [h]
    · have hn : n < pairs.length := by omega
      have hpv : pairs.get? n = some (pairs.get ⟨n, hn⟩) :=
        List.get?_eq_get hn
      have hstep : ((pairs.take (n + 1)).map Prod.snd).sum =
          ((pairs.take n).map Prod.snd).sum + (pairs.get ⟨n, hn⟩).2 :=
        take_sum_succ pairs n _ hpv
      have hw := hpos _ (List.get?_mem hpv)
      have hih := ihm (by omega) (by omega)
      omega

lemma mkSampler_cumAt (pairs : List (α × Int))
    (hpos : ∀ p ∈ pairs, 0 < p.2)
    (hb : (pairs.map Prod.snd).sum ≤ 2147483647) :
    ∀ j : Nat, j < pairs.length →
      cumAt (mkSampler pairs).Items j =
        ((pairs.take (j + 1)).map Prod.snd).sum := by
  intro j hj
  obtain ⟨-, hidx⟩ := convertLoop_exact pairs 0 (le_refl 0) hpos (by omega)
  have hpv : pairs.get? j = some (pairs.get ⟨j, hj⟩) := List.get?_eq_get hj
  have hj' := hidx j _ hpv
  rw [zero_add] at hj'
  exact cumAt_get? hj'

lemma mkSampler_maxWeight (pairs : List (α × Int))
    (hpos : ∀ p ∈ pairs, 0 < p.2)
    (hb : (pairs.map Prod.snd).sum ≤ 2147483647) :
    (mkSampler pairs).MaxWeight = (pairs.map Prod.snd).sum := by
  obtain ⟨h1, -⟩ := convertLoop_exact pairs 0 (le_refl 0) hpos (by omega)
  show (convertLoop pairs 0).1 = _
  rw [h1]
  ring

/-! ## Theorems for the claims -/

/-- When started from an in-range accumulator, the final cumulative value is
the 32-bit wrap of the exact sum (the loop wraps instead of detecting
overflow). -/
lemma convertLoop_fst_wrap (pairs : List (α × Int)) (c : Int)
    (hc1 : -2147483648 ≤ c) (hc2 : c < 2147483648) :
    (convertLoop pairs c).1 = int32wrap (c + (pairs.map Prod.snd).sum) := by
  induction pairs generalizing c with
  | nil =>
    simp [convertLoop, int32wrap_eq_self hc1 hc2]
  | cons hd tl ih =>
    obtain ⟨item, p⟩ := hd
    have hr := int32wrap_range (c + p)
    simp only [convertLoop, List.map_cons, List.sum_cons]
    rw [ih _ hr.1 hr.2, int32wrap_add]
    congr 1
    ring


/-- **C1.** For every entries array that is non-empty with strictly
increasing cumulative weights whose last cumulative weight equals
`MaxWeight`, and every `target` in `[0, MaxWeight)`, the binary search of
`GetRandom` returns the value of the leftmost entry whose cumulative weight
is strictly greater than `target`, and the search stays inside the array
(the returned index is in bounds and no access fails). -/
theorem getRandom_leftmost_gt_target (s : Sampler α) (target : Int)
    (hne : s.Items ≠ [])
    (hchain : List.Chain' (fun a b => a.1 < b.1) s.Items)
    (hlast : cumAt s.Items (s.Items.length - 1) = s.MaxWeight)
    (h0 : 0 ≤ target) (hT : target < s.MaxWeight) :
    ∃ (i : Nat) (e : Int × α), i < s.Items.length ∧
      s.Items.get? i = some e ∧ GetRandom s target = some e.2 ∧
      target < e.1 ∧
      ∀ (j : Nat) (f : Int × α), j < i → s.Items.get? j = some f →
        f.1 ≤ target := by
  have hlen : 1 ≤ s.Items.length := List.length_pos.mpr hne
  have hcast : (((s.Items.length : Int) - 1)).toNat = s.Items.length - 1 := by
    omega
  obtain ⟨l, hl, hl0, hl1, hl2, hl3⟩ :=
    GetRandomLoop_spec s.Items target (cumAt_mono hchain)
      (((s.Items.length : Int) - 1) - 0).toNat 0 ((s.Items.length : Int) - 1)
      (le_refl _) (le_refl _) (by omega) (by omega)
      (by intro i hi; omega)
      (by rw [hcast, hlast]; exact hT)
  obtain ⟨e, hgetIl, hget?l⟩ :=
    getI_eq_some s.Items l hl0 (by omega)
  refine ⟨l.toNat, e, by omega, hget?l, ?_, ?_, ?_⟩
  · unfold GetRandom GetRandomIdx
    rw [hl]
    show (getI s.Items l).map Prod.snd = some e.2
    rw [hgetIl]
    rfl
  · rw [cumAt_get? hget?l] at hl2
    exact hl2
  · intro j f hj hf
    rw [← cumAt_get? hf]
    exact hl3 j (by omega)

theorem getRandom_leftmost_gt_target_witness :
    ∃ (i : Nat) (e : Int × Nat),
      i < (Sampler.mk 3 [(1, 10), (3, 20)]).Items.length ∧
      (Sampler.mk 3 [(1, 10), (3, 20)]).Items.get? i = some e ∧
      GetRandom (Sampler.mk 3 [(1, 10), (3, 20)]) 1 = some e.2 ∧
      (1 : Int) < e.1 ∧
      ∀ (j : Nat) (f : Int × Nat), j < i →
        (Sampler.mk 3 [(1, 10), (3, 20)]).Items.get? j = some f →
        f.1 ≤ 1 :=
  getRandom_leftmost_gt_target (Sampler.mk 3 [(1, 10), (3, 20)]) 1
    (by decide) (by norm_num [List.chain'_cons]) (by decide) (by decide)
    (by decide)

/-- **C6.** Once a sampler is built from a non-empty table of positive
weights, the draw operation cannot fail: for every `target` in
`[0, MaxWeight)` the binary search only makes in-bounds accesses and always
returns a value. -/
theorem getRandom_total (pairs : List (α × Int)) (target : Int)
    (hne : pairs ≠ [])
    (hpos : ∀ p ∈ pairs, 0 < p.2)
    (h0 : 0 ≤ target) (hT : target < (mkSampler pairs).MaxWeight) :
    ∃ v, GetRandom (mkSampler pairs) target = some v := by
  have hlen : (mkSampler pairs).Items.length = pairs.length := by
    unfold mkSampler
    exact convertLoop_length pairs 0
  have hlen1 : 1 ≤ pairs.length := List.length_pos.mpr hne
  obtain ⟨l, hl, hl0, hl1⟩ :=
    GetRandomLoop_total (mkSampler pairs).Items target
      ((((mkSampler pairs).Items.length : Int) - 1) - 0).toNat
      0 (((mkSampler pairs).Items.length : Int) - 1)
      (le_refl _) (le_refl _) (by omega) (by omega)
  obtain ⟨e, hgetIl, -⟩ :=
    getI_eq_some (mkSampler pairs).Items l hl0 (by omega)
  refine ⟨e.2, ?_⟩
  unfold GetRandom GetRandomIdx
  rw [hl]
  show (getI (mkSampler pairs).Items l).map Prod.snd = some e.2
  rw [hgetIl]
  rfl

theorem getRandom_total_witness :
    ∃ v, GetRandom (mkSampler [((7 : Nat), (2 : Int))]) 1 = some v :=
  getRandom_total [((7 : Nat), (2 : Int))] 1 (by decide) (by decide)
    (by decide) (by decide)

/-- **C9.** Construction accepts the empty input without error, producing
`MaxWeight = 0` and an empty `Items` array, and every subsequent call of
`GetRandom` on that structure reads index `0` of the empty array, which is
out of bounds and fails. -/
theorem initialize_empty_getRandom_fails :
    initializeSampler ([] : List (Nat × Int)) = .ok ⟨0, []⟩ ∧
    ∀ target : Int, GetRandom (⟨0, []⟩ : Sampler Nat) target = none := by
  refine ⟨rfl, ?_⟩
  intro target
  unfold GetRandom GetRandomIdx
  rw [GetRandomLoop]
  norm_num [getI]

/-- **C10.** For every `Items` array of length ≥ 1 and every `target`, the
binary-search loop terminates: each iteration strictly shrinks the interval
width `right - left` (whichever branch is taken), and the loop run from
`left = 0`, `right = length - 1` finishes with a final index `l` inside
`[0, length - 1]`. -/
theorem getRandomLoop_terminates (items : List (Int × α)) (target : Int)
    (hlen : 1 ≤ items.length) :
    (∀ left right : Int, left < right →
      (right - (left + (right - left) / 2 + 1)).toNat <
        (right - left).toNat ∧
      (left + (right - left) / 2 - left).toNat < (right - left).toNat) ∧
    ∃ l : Int,
      GetRandomLoop items target 0 ((items.length : Int) - 1) = some l ∧
      0 ≤ l ∧ l ≤ (items.length : Int) - 1 := by
  constructor
  · intro left right h
    omega
  · exact GetRandomLoop_total items target
      (((items.length : Int) - 1) - 0).toNat 0 ((items.length : Int) - 1)
      (le_refl _) (le_refl _) (by omega) (by omega)

theorem getRandomLoop_terminates_witness :
    (∀ left right : Int, left < right →
      (right - (left + (right - left) / 2 + 1)).toNat <
        (right - left).toNat ∧
      (left + (right - left) / 2 - left).toNat < (right - left).toNat) ∧
    ∃ l : Int,
      GetRandomLoop [((5 : Int), (0 : Nat)), (9, 1)] 6 0
        (((([((5 : Int), (0 : Nat)), (9, 1)] : List (Int × Nat)).length) :
          Int) - 1) = some l ∧
      0 ≤ l ∧
      l ≤ ((([((5 : Int), (0 : Nat)), (9, 1)] : List (Int × Nat)).length :
        Int) - 1) :=
  getRandomLoop_terminates [((5 : Int), (0 : Nat)), (9, 1)] 6 (by decide)

/-- **C3 (amended).** The generated construction code performs no input
validation at all: it never raises `InvalidInputError` (nor any other
error), accepting the empty sequence and non-positive weights alike, and it
drops nothing — every input pair still yields exactly one entry. -/
theorem initialize_no_validation (pairs : List (α × Int)) :
    (∀ e : ConstructionError, initializeSampler pairs ≠ .error e) ∧
    (mkSampler pairs).Items.length = pairs.length := by
  constructor
  · intro e h
    simp [initializeSampler] at h
  · exact convertLoop_length pairs 0

/-- **C3 counterexample.** Construction succeeds on inputs the claim says
must fail: a table whose weights are `0` and `-5` (and, for the empty
table, see the `InvalidInputError`-free result below for `C9`).  The claim
"construction fails with `InvalidInputError` iff the sequence is empty or
some weight ≤ 0" is false at this input. -/
theorem initialize_accepts_invalid_cex :
    initializeSampler [((0 : Nat), (0 : Int)), (1, -5)] =
      .ok ⟨-5, [(0, 0), (-5, 1)]⟩ := rfl

/-- **C4 (amended).** Construction never raises `OverflowError`: the running
sum wraps modulo `2^32` into the signed 32-bit range, so `MaxWeight` is the
32-bit wrap of the exact weight sum and always lies in
`[-2^31, 2^31)`. -/
theorem initialize_overflow_wraps (pairs : List (α × Int)) :
    (∀ e : ConstructionError, initializeSampler pairs ≠ .error e) ∧
    (mkSampler pairs).MaxWeight = int32wrap ((pairs.map Prod.snd).sum) ∧
    -2147483648 ≤ (mkSampler pairs).MaxWeight ∧
    (mkSampler pairs).MaxWeight < 2147483648 := by
  have hw : (mkSampler pairs).MaxWeight =
      int32wrap ((pairs.map Prod.snd).sum) := by
    show (convertLoop pairs 0).1 = _
    rw [convertLoop_fst_wrap pairs 0 (by omega) (by omega)]
    norm_num
  refine ⟨fun e h => by simp [initializeSampler] at h, hw, ?_, ?_⟩
  · rw [hw]; exact (int32wrap_range _).1
  · rw [hw]; exact (int32wrap_range _).2

/-- **C4 counterexample.** A running sum that exceeds `Int32.MaxValue`
produces a wrapped (negative) `MaxWeight` and still a successful
construction, not an `OverflowError`. -/
theorem initialize_overflow_no_error_cex :
    initializeSampler [((0 : Nat), (2147483647 : Int)), (1, 1)] =
      .ok ⟨-2147483648, [(2147483647, 0), (-2147483648, 1)]⟩ := rfl

/-- **C5 (amended).** For every non-empty input sequence of (value, weight)
pairs with all weights positive *whose total weight stays within the 32-bit
range* (the bound the wrap-around counterexample forces), the constructed
structure has one entry per input pair in input order, the i-th entry's
cumulative weight is the sum of the first `i+1` weights, the cumulative
weights are strictly increasing, `Items` is non-empty, `MaxWeight` is the
total weight, and the last entry's cumulative weight equals `MaxWeight`. -/
theorem mkSampler_invariants (pairs : List (α × Int))
    (hne : pairs ≠ [])
    (hpos : ∀ p ∈ pairs, 0 < p.2)
    (hb : (pairs.map Prod.snd).sum ≤ 2147483647) :
    (mkSampler pairs).Items.length = pairs.length ∧
    (∀ (i : Nat) (pv : α × Int), pairs.get? i = some pv →
      (mkSampler pairs).Items.get? i =
        some (((pairs.take (i + 1)).map Prod.snd).sum, pv.1)) ∧
    List.Chain' (fun a b => a.1 < b.1) (mkSampler pairs).Items ∧
    (mkSampler pairs).Items ≠ [] ∧
    (mkSampler pairs).MaxWeight = (pairs.map Prod.snd).sum ∧
    cumAt (mkSampler pairs).Items ((mkSampler pairs).Items.length - 1) =
      (mkSampler pairs).MaxWeight := by
  have hlen : (mkSampler pairs).Items.length = pairs.length :=
    convertLoop_length pairs 0
  obtain ⟨h1, h2⟩ := convertLoop_exact pairs 0 (le_refl 0) hpos (by omega)
  have hidx : ∀ (i : Nat) (pv : α × Int), pairs.get? i = some pv →
      (mkSampler pairs).Items.get? i =
        some (((pairs.take (i + 1)).map Prod.snd).sum, pv.1) := by
    intro i pv h
    have := h2 i pv h
    rw [zero_add] at this
    exact this
  have hmax : (mkSampler pairs).MaxWeight = (pairs.map Prod.snd).sum := by
    show (convertLoop pairs 0).1 = _
    rw [h1]; ring
  have hlenpos : 1 ≤ pairs.length := List.length_pos.mpr hne
  refine ⟨hlen, hidx, mkSampler_chain pairs hpos hb, ?_, hmax, ?_⟩
  · intro h
    rw [h] at hlen
    simp at hlen
    omega
  · have hip : pairs.length - 1 < pairs.length := by omega
    have hpv : pairs.get? (pairs.length - 1) =
        some (pairs.get ⟨pairs.length - 1, hip⟩) := List.get?_eq_get hip
    have hi := hidx (pairs.length - 1) _ hpv
    have hfix : pairs.length - 1 + 1 = pairs.length := by omega
    rw [hfix, List.take_length] at hi
    unfold cumAt
    rw [hlen, hi, hmax]

theorem mkSampler_invariants_witness :
    ([((10 : Nat), (3 : Int)), (20, 5)] : List (Nat × Int)) ≠ [] ∧
    (∀ p ∈ ([((10 : Nat), (3 : Int)), (20, 5)] : List (Nat × Int)),
      0 < p.2) ∧
    ((([((10 : Nat), (3 : Int)), (20, 5)] : List (Nat × Int)).map
      Prod.snd).sum ≤ 2147483647) ∧
    ((mkSampler [((10 : Nat), (3 : Int)), (20, 5)]).Items.length =
      ([((10 : Nat), (3 : Int)), (20, 5)] : List (Nat × Int)).length ∧
    (∀ (i : Nat) (pv : Nat × Int),
      ([((10 : Nat), (3 : Int)), (20, 5)] : List (Nat × Int)).get? i =
        some pv →
      (mkSampler [((10 : Nat), (3 : Int)), (20, 5)]).Items.get? i =
        some (((([((10 : Nat), (3 : Int)), (20, 5)] :
          List (Nat × Int)).take (i + 1)).map Prod.snd).sum, pv.1)) ∧
    List.Chain' (fun a b => a.1 < b.1)
      (mkSampler [((10 : Nat), (3 : Int)), (20, 5)]).Items ∧
    (mkSampler [((10 : Nat), (3 : Int)), (20, 5)]).Items ≠ [] ∧
    (mkSampler [((10 : Nat), (3 : Int)), (20, 5)]).MaxWeight =
      (([((10 : Nat), (3 : Int)), (20, 5)] : List (Nat × Int)).map
        Prod.snd).sum ∧
    cumAt (mkSampler [((10 : Nat), (3 : Int)), (20, 5)]).Items
      ((mkSampler [((10 : Nat), (3 : Int)), (20, 5)]).Items.length - 1) =
      (mkSampler [((10 : Nat), (3 : Int)), (20, 5)]).MaxWeight) :=
  ⟨by decide, by decide, by decide,
    mkSampler_invariants [((10 : Nat), (3 : Int)), (20, 5)]
      (by decide) (by decide) (by decide)⟩

/-- **C5 counterexample.** With the positive weights
`[2147483647, 1]` the running 32-bit sum wraps: the second entry's
cumulative weight is `-2147483648`, not the exact sum `2147483648`, the
cumulative weights are not strictly increasing, and `MaxWeight` is not the
weight total — refuting the claim as stated (without an overflow bound). -/
theorem mkSampler_overflow_cex :
    (mkSampler [((0 : Nat), (2147483647 : Int)), (1, 1)]).Items.get? 1 =
      some (-2147483648, 1) ∧
    (mkSampler [((0 : Nat), (2147483647 : Int)), (1, 1)]).MaxWeight =
      -2147483648 ∧
    ¬ List.Chain' (fun a b => a.1 < b.1)
      (mkSampler [((0 : Nat), (2147483647 : Int)), (1, 1)]).Items ∧
    ((-2147483648 : Int) ≠ 2147483647 + 1) := by
  refine ⟨rfl, rfl, ?_, by decide⟩
  show ¬ List.Chain' (fun a b => a.1 < b.1)
    [((2147483647 : Int), (0 : Nat)), (-2147483648, 1)]
  rw [List.chain'_cons]
  rintro ⟨h, -⟩
  norm_num at h

/-- **C2 (amended).** For every non-empty weight table with positive integer
weights *whose total weight stays within the 32-bit range* (the bound the
wrap-around counterexample forces), a boundary target selects the entry
whose range starts at that boundary, so the number of targets in
`[0, MaxWeight)` selecting entry `i` is exactly entry `i`'s weight; in
particular weights `[3, 5, 2]` over `[A, B, C]` give cumulative array
`[3, 8, 10]` and targets `2, 3, 7, 8, 9` yield `A, B, B, C, C`. -/
theorem draw_counts_match_weights (pairs : List (α × Int))
    (hne : pairs ≠ [])
    (hpos : ∀ p ∈ pairs, 0 < p.2)
    (hb : (pairs.map Prod.snd).sum ≤ 2147483647) :
    (∀ (i : Nat) (pv : α × Int), pairs.get? i = some pv →
      ((Finset.Ico (0 : Int) (mkSampler pairs).MaxWeight).filter
        (fun t => GetRandomIdx (mkSampler pairs) t = some (i : Int))).card =
        pv.2.toNat) ∧
    ((mkSampler [("A", (3 : Int)), ("B", 5), ("C", 2)]).Items.map
        Prod.fst = [3, 8, 10] ∧
      GetRandom (mkSampler [("A", (3 : Int)), ("B", 5), ("C", 2)]) 2 =
        some "A" ∧
      GetRandom (mkSampler [("A", (3 : Int)), ("B", 5), ("C", 2)]) 3 =
        some "B" ∧
      GetRandom (mkSampler [("A", (3 : Int)), ("B", 5), ("C", 2)]) 7 =
        some "B" ∧
      GetRandom (mkSampler [("A", (3 : Int)), ("B", 5), ("C", 2)]) 8 =
        some "C" ∧
      GetRandom (mkSampler [("A", (3 : Int)), ("B", 5), ("C", 2)]) 9 =
        some "C") := by
  constructor
  · intro i pv hpv
    have hlen : (mkSampler pairs).Items.length = pairs.length :=
      convertLoop_length pairs 0
    have hlen1 : 1 ≤ pairs.length := List.length_pos.mpr hne
    have hi : i < pairs.length := by
      by_contra h
      rw [List.get?_eq_none.mpr (by omega)] at hpv
      simp at hpv
    have hchain := mkSampler_chain pairs hpos hb
    have hcum := mkSampler_cumAt pairs hpos hb
    have hmax := mkSampler_maxWeight pairs hpos hb
    have hmono := take_sum_mono pairs hpos
    have hitems_ne : (mkSampler pairs).Items ≠ [] := by
      intro h
      rw [h] at hlen
      simp at hlen
      omega
    have hw := hpos _ (List.get?_mem hpv)
    have hstep : ((pairs.take (i + 1)).map Prod.snd).sum =
        ((pairs.take i).map Prod.snd).sum + pv.2 := take_sum_succ pairs i _ hpv
    have hSfull : ((pairs.take pairs.length).map Prod.snd).sum =
        (pairs.map Prod.snd).sum := by rw [List.take_length]
    have hlast : cumAt (mkSampler pairs).Items
        ((mkSampler pairs).Items.length - 1) = (pairs.map Prod.snd).sum := by
      rw [hlen]
      have h1 := hcum (pairs.length - 1) (by omega)
      have hfix : pairs.length - 1 + 1 = pairs.length := by omega
      rw [hfix] at h1
      rw [h1, hSfull]
    have hS0 : ∀ k : Nat, k ≤ pairs.length →
        0 ≤ ((pairs.take k).map Prod.snd).sum := by
      intro k hk
      have := hmono 0 k (by omega) hk
      simpa using this
    have hchar : ∀ t : Int, 0 ≤ t → t < (pairs.map Prod.snd).sum →
        (GetRandomIdx (mkSampler pairs) t = some (i : Int) ↔
          ((pairs.take i).map Prod.snd).sum ≤ t ∧
            t < ((pairs.take (i + 1)).map Prod.snd).sum) := by
      intro t ht0 htT
      rw [GetRandomIdx_eq_iff (mkSampler pairs) hitems_ne hchain t
        (by rw [hlast]; exact htT)]
      constructor
      · rintro ⟨-, -, h3, h4⟩
        constructor
        · cases i with
          | zero => simpa using ht0
          | succ n =>
            have hcn := hcum n (by omega)
            have hn4 := h4 n (by omega)
            rw [hcn] at hn4
            exact hn4
        · have hnat : ((i : Int)).toNat = i := by omega
          rw [hnat, hcum i hi] at h3
          exact h3
      · rintro ⟨hSi, hSi1⟩
        refine ⟨by omega, by omega, ?_, ?_⟩
        · have hnat : ((i : Int)).toNat = i := by omega
          rw [hnat, hcum i hi]
          exact hSi1
        · intro j hj
          have hji : j < i := by omega
          rw [hcum j (by omega)]
          exact le_trans (hmono (j + 1) i (by omega) (by omega)) hSi
    have hset : (Finset.Ico (0 : Int) (mkSampler pairs).MaxWeight).filter
        (fun t => GetRandomIdx (mkSampler pairs) t = some (i : Int)) =
        Finset.Ico ((pairs.take i).map Prod.snd).sum
          ((pairs.take (i + 1)).map Prod.snd).sum := by
      ext t
      simp only [Finset.mem_filter, Finset.mem_Ico]
      constructor
      · rintro ⟨⟨ht0, htT⟩, hidxt⟩
        rw [hmax] at htT
        exact (hchar t ht0 htT).mp hidxt
      · rintro ⟨h1, h2⟩
        have ht0 : 0 ≤ t := le_trans (hS0 i (by omega)) h1
        have htT : t < (pairs.map Prod.snd).sum := by
          have := hmono (i + 1) pairs.length (by omega) (le_refl _)
          rw [hSfull] at this
          omega
        exact ⟨⟨ht0, by rw [hmax]; exact htT⟩, (hchar t ht0 htT).mpr ⟨h1, h2⟩⟩
    rw [hset, Int.card_Ico]
    omega
  · refine ⟨by decide, ?_, ?_, ?_, ?_, ?_⟩ <;>
      simp +decide [GetRandom, GetRandomIdx, GetRandomLoop, getI, mkSampler,
        convertLoop, int32wrap]

theorem draw_counts_match_weights_witness :
    (([("A", (3 : Int)), ("B", 5), ("C", 2)] : List (String × Int)) ≠ [] ∧
      (∀ p ∈ ([("A", (3 : Int)), ("B", 5), ("C", 2)] :
        List (String × Int)), 0 < p.2) ∧
      (([("A", (3 : Int)), ("B", 5), ("C", 2)] : List (String × Int)).map
        Prod.snd).sum ≤ 2147483647) ∧
    ((∀ (i : Nat) (pv : String × Int),
      ([("A", (3 : Int)), ("B", 5), ("C", 2)] :
        List (String × Int)).get? i = some pv →
      ((Finset.Ico (0 : Int)
        (mkSampler [("A", (3 : Int)), ("B", 5), ("C", 2)]).MaxWeight).filter
        (fun t => GetRandomIdx
          (mkSampler [("A", (3 : Int)), ("B", 5), ("C", 2)]) t =
            some (i : Int))).card = pv.2.toNat) ∧
    ((mkSampler [("A", (3 : Int)), ("B", 5), ("C", 2)]).Items.map
        Prod.fst = [3, 8, 10] ∧
      GetRandom (mkSampler [("A", (3 : Int)), ("B", 5), ("C", 2)]) 2 =
        some "A" ∧
      GetRandom (mkSampler [("A", (3 : Int)), ("B", 5), ("C", 2)]) 3 =
        some "B" ∧
      GetRandom (mkSampler [("A", (3 : Int)), ("B", 5), ("C", 2)]) 7 =
        some "B" ∧
      GetRandom (mkSampler [("A", (3 : Int)), ("B", 5), ("C", 2)]) 8 =
        some "C" ∧
      GetRandom (mkSampler [("A", (3 : Int)), ("B", 5), ("C", 2)]) 9 =
        some "C")) :=
  ⟨⟨by decide, by decide, by decide⟩,
    draw_counts_match_weights [("A", (3 : Int)), ("B", 5), ("C", 2)]
      (by decide) (by decide) (by decide)⟩

/-- **C2 counterexample.** With the positive weights `[2147483647, 1]` the
wrapped total is negative, the sampling range `[0, MaxWeight)` is empty and
entry `0` is selected by `0` targets, not by its weight `2147483647` —
refuting the claim as stated (for every table of positive weights). -/
theorem draw_counts_overflow_cex :
    ((Finset.Ico (0 : Int)
        (mkSampler [((0 : Nat), (2147483647 : Int)),
          (1, 1)]).MaxWeight).filter
      (fun t => GetRandomIdx
        (mkSampler [((0 : Nat), (2147483647 : Int)), (1, 1)]) t =
          some (0 : Int))).card = 0 ∧
    (0 : Nat) ≠ (2147483647 : Int).toNat := by
  constructor
  · have h : (mkSampler [((0 : Nat), (2147483647 : Int)),
        (1, 1)]).MaxWeight = -2147483648 := rfl
    rw [h, Finset.Ico_eq_empty (by norm_num)]
    simp
  · decide

/-- **C7 (amended).** For every non-empty weight table with positive integer
weights *whose total weight stays within the 32-bit range* (the bound the
wrap-around counterexample forces), drawing with a randomness source that
returns `0` yields the first value of the table and drawing with a source
that returns `MaxWeight - 1` yields the last value. -/
theorem draw_extremes (pairs : List (α × Int))
    (hne : pairs ≠ [])
    (hpos : ∀ p ∈ pairs, 0 < p.2)
    (hb : (pairs.map Prod.snd).sum ≤ 2147483647) :
    (∀ pv : α × Int, pairs.get? 0 = some pv →
      GetRandom (mkSampler pairs) 0 = some pv.1) ∧
    (∀ pv : α × Int, pairs.get? (pairs.length - 1) = some pv →
      GetRandom (mkSampler pairs) ((mkSampler pairs).MaxWeight - 1) =
        some pv.1) := by
  have hlen : (mkSampler pairs).Items.length = pairs.length :=
    convertLoop_length pairs 0
  have hlen1 : 1 ≤ pairs.length := List.length_pos.mpr hne
  have hchain := mkSampler_chain pairs hpos hb
  have hcum := mkSampler_cumAt pairs hpos hb
  have hmax := mkSampler_maxWeight pairs hpos hb
  have hmono := take_sum_mono pairs hpos
  have hitems_ne : (mkSampler pairs).Items ≠ [] := by
    intro h
    rw [h] at hlen
    simp at hlen
    omega
  have hSfull : ((pairs.take pairs.length).map Prod.snd).sum =
      (pairs.map Prod.snd).sum := by rw [List.take_length]
  have hfix : pairs.length - 1 + 1 = pairs.length := by omega
  have hlast : cumAt (mkSampler pairs).Items
      ((mkSampler pairs).Items.length - 1) = (pairs.map Prod.snd).sum := by
    rw [hlen]
    have h1 := hcum (pairs.length - 1) (by omega)
    rw [hfix] at h1
    rw [h1, hSfull]
  obtain ⟨-, hidx⟩ := convertLoop_exact pairs 0 (le_refl 0) hpos (by omega)
  constructor
  · intro pv hpv
    have hw := hpos _ (List.get?_mem hpv)
    have hstep : ((pairs.take 1).map Prod.snd).sum =
        ((pairs.take 0).map Prod.snd).sum + pv.2 :=
      take_sum_succ pairs 0 _ hpv
    have hS1 : ((pairs.take 1).map Prod.snd).sum = pv.2 := by
      simpa using hstep
    have hT : 0 < (pairs.map Prod.snd).sum := by
      have := hmono 1 pairs.length (by omega) (le_refl _)
      rw [hSfull] at this
      omega
    have hc0 : cumAt (mkSampler pairs).Items 0 =
        ((pairs.take 1).map Prod.snd).sum := hcum 0 (by omega)
    have hidx0 : GetRandomIdx (mkSampler pairs) 0 = some (0 : Int) := by
      rw [GetRandomIdx_eq_iff (mkSampler pairs) hitems_ne hchain 0
        (by rw [hlast]; omega)]
      refine ⟨by omega, by omega, ?_, by intro j hj; omega⟩
      have hnat : ((0 : Int)).toNat = 0 := rfl
      rw [hnat, hc0, hS1]
      omega
    have hi0 : (mkSampler pairs).Items.get? 0 =
        some (((pairs.take 1).map Prod.snd).sum, pv.1) := by
      have h1 := hidx 0 _ hpv
      rw [zero_add] at h1
      exact h1
    unfold GetRandom
    rw [hidx0]
    show (getI (mkSampler pairs).Items (0 : Int)).map Prod.snd = some pv.1
    have hg : getI (mkSampler pairs).Items (0 : Int) =
        some (((pairs.take 1).map Prod.snd).sum, pv.1) := by
      unfold getI
      rw [if_pos (by omega)]
      exact hi0
    rw [hg]
    rfl
  · intro pv hpv
    have hw := hpos _ (List.get?_mem hpv)
    have hstep : ((pairs.take pairs.length).map Prod.snd).sum =
        ((pairs.take (pairs.length - 1)).map Prod.snd).sum + pv.2 := by
      have h1 := take_sum_succ pairs (pairs.length - 1) _ hpv
      rw [hfix] at h1
      exact h1
    have hcl : cumAt (mkSampler pairs).Items (pairs.length - 1) =
        ((pairs.take pairs.length).map Prod.snd).sum := by
      have h1 := hcum (pairs.length - 1) (by omega)
      rw [hfix] at h1
      exact h1
    have hidxl : GetRandomIdx (mkSampler pairs)
        ((mkSampler pairs).MaxWeight - 1) =
        some (((pairs.length - 1 : Nat)) : Int) := by
      rw [GetRandomIdx_eq_iff (mkSampler pairs) hitems_ne hchain _
        (by rw [hlast]; rw [hmax]; omega)]
      refine ⟨by omega, by omega, ?_, ?_⟩
      · have hnat : ((((pairs.length - 1 : Nat)) : Int)).toNat =
            pairs.length - 1 := by omega
        rw [hnat, hcl, hSfull, hmax]
        omega
      · intro j hj
        have hji : j < pairs.length - 1 := by omega
        rw [hcum j (by omega), hmax]
        have h1 : ((pairs.take (j + 1)).map Prod.snd).sum ≤
            ((pairs.take (pairs.length - 1)).map Prod.snd).sum :=
          hmono (j + 1) (pairs.length - 1) (by omega) (by omega)
        omega
    have hil : (mkSampler pairs).Items.get? (pairs.length - 1) =
        some (((pairs.take pairs.length).map Prod.snd).sum, pv.1) := by
      have h1 := hidx (pairs.length - 1) _ hpv
      rw [zero_add, hfix] at h1
      exact h1
    unfold GetRandom
    rw [hidxl]
    show (getI (mkSampler pairs).Items
      (((pairs.length - 1 : Nat)) : Int)).map Prod.snd = some pv.1
    have hg : getI (mkSampler pairs).Items
        (((pairs.length - 1 : Nat)) : Int) =
        some (((pairs.take pairs.length).map Prod.snd).sum, pv.1) := by
      unfold getI
      rw [if_pos (by omega)]
      have hnat : ((((pairs.length - 1 : Nat)) : Int)).toNat =
          pairs.length - 1 := by omega
      rw [hnat]
      exact hil
    rw [hg]
    rfl

theorem draw_extremes_witness :
    (([((10 : Nat), (3 : Int)), (20, 5)] : List (Nat × Int)) ≠ [] ∧
      (∀ p ∈ ([((10 : Nat), (3 : Int)), (20, 5)] : List (Nat × Int)),
        0 < p.2) ∧
      (([((10 : Nat), (3 : Int)), (20, 5)] : List (Nat × Int)).map
        Prod.snd).sum ≤ 2147483647) ∧
    ((∀ pv : Nat × Int,
      ([((10 : Nat), (3 : Int)), (20, 5)] : List (Nat × Int)).get? 0 =
        some pv →
      GetRandom (mkSampler [((10 : Nat), (3 : Int)), (20, 5)]) 0 =
        some pv.1) ∧
    (∀ pv : Nat × Int,
      ([((10 : Nat), (3 : Int)), (20, 5)] : List (Nat × Int)).get?
        (([((10 : Nat), (3 : Int)), (20, 5)] :
          List (Nat × Int)).length - 1) = some pv →
      GetRandom (mkSampler [((10 : Nat), (3 : Int)), (20, 5)])
        ((mkSampler [((10 : Nat), (3 : Int)), (20, 5)]).MaxWeight - 1) =
        some pv.1)) :=
  ⟨⟨by decide, by decide, by decide⟩,
    draw_extremes [((10 : Nat), (3 : Int)), (20, 5)]
      (by decide) (by decide) (by decide)⟩

/-- **C7 counterexample.** With the positive weights `[1, 2147483647, 2]`
the intermediate cumulative sum wraps to a negative value, and a randomness
source returning `0` makes the search return the *third* value, not the
first — refuting the claim as stated (for every table of positive
weights). -/
theorem draw_extremes_overflow_cex :
    GetRandom (mkSampler [((10 : Nat), (1 : Int)), (20, 2147483647),
      (30, 2)]) 0 = some 30 ∧ (30 : Nat) ≠ 10 := by
  constructor
  · simp +decide [GetRandom, GetRandomIdx, GetRandomLoop, getI, mkSampler,
      convertLoop, int32wrap]
  · decide

lemma registryGet_present (raw : List (String × List (α × Int)))
    (hkeys : (raw.map Prod.fst).Nodup)
    (key : String) (table : List (α × Int)) (hmem : (key, table) ∈ raw) :
    registryGet (InitializeDescBodyParts raw) key =
      .ok (mkSampler table) := by
  induction raw with
  | nil => simp at hmem
  | cons hd tl ih =>
    obtain ⟨k0, t0⟩ := hd
    simp only [List.map_cons, List.nodup_cons] at hkeys
    obtain ⟨hk0, hk1⟩ := hkeys
    rcases List.mem_cons.mp hmem with h | h
    · cases h
      unfold registryGet InitializeDescBodyParts
      simp only [List.map_cons]
      rw [List.find?_cons_of_pos _ (by simp)]
    · have hkey : key ≠ k0 := by
        intro hh
        subst hh
        exact hk0 (List.mem_map_of_mem Prod.fst h)
      unfold registryGet InitializeDescBodyParts
      simp only [List.map_cons]
      rw [List.find?_cons_of_neg _ (by simp [Ne.symm hkey])]
      have h1 := ih hk1 h
      unfold registryGet InitializeDescBodyParts at h1
      exact h1

lemma registryGet_absent (raw : List (String × List (α × Int)))
    (key : String) (habs : key ∉ raw.map Prod.fst) :
    registryGet (InitializeDescBodyParts raw) key =
      .error .unknownKey := by
  induction raw with
  | nil => rfl
  | cons hd tl ih =>
    obtain ⟨k0, t0⟩ := hd
    simp only [List.map_cons, List.mem_cons] at habs
    push_neg at habs
    obtain ⟨h1, h2⟩ := habs
    unfold registryGet InitializeDescBodyParts
    simp only [List.map_cons]
    rw [List.find?_cons_of_neg _ (by simp [Ne.symm h1])]
    have h3 := ih h2
    unfold registryGet InitializeDescBodyParts at h3
    exact h3

/-- **C8 (amended).** For a raw table with unique keys, lookup of every
present key succeeds and returns that key's converted sampler, whose
`MaxWeight` equals the sum of the key's raw weights *provided the weights
are positive and their sum stays within the 32-bit range* (the bound the
wrap-around counterexample forces); lookup of an absent key fails with
`UnknownKeyError` (`KeyNotFoundException`). -/
theorem registry_lookup (raw : List (String × List (α × Int)))
    (hkeys : (raw.map Prod.fst).Nodup) :
    (∀ (key : String) (table : List (α × Int)), (key, table) ∈ raw →
      (∀ p ∈ table, 0 < p.2) →
      (table.map Prod.snd).sum ≤ 2147483647 →
      registryGet (InitializeDescBodyParts raw) key =
        .ok (mkSampler table) ∧
      (mkSampler table).MaxWeight = (table.map Prod.snd).sum) ∧
    (∀ key : String, key ∉ raw.map Prod.fst →
      registryGet (InitializeDescBodyParts raw) key =
        .error .unknownKey) := by
  constructor
  · intro key table hmem hpos hb
    exact ⟨registryGet_present raw hkeys key table hmem,
      mkSampler_maxWeight table hpos hb⟩
  · intro key h
    exact registryGet_absent raw key h

theorem registry_lookup_witness :
    (([("a", [((0 : Nat), (1 : Int))]), ("b", [(1, 2)])] :
      List (String × List (Nat × Int))).map Prod.fst).Nodup ∧
    ((∀ (key : String) (table : List (Nat × Int)),
      (key, table) ∈ ([("a", [((0 : Nat), (1 : Int))]), ("b", [(1, 2)])] :
        List (String × List (Nat × Int))) →
      (∀ p ∈ table, 0 < p.2) →
      (table.map Prod.snd).sum ≤ 2147483647 →
      registryGet (InitializeDescBodyParts
        [("a", [((0 : Nat), (1 : Int))]), ("b", [(1, 2)])]) key =
        .ok (mkSampler table) ∧
      (mkSampler table).MaxWeight = (table.map Prod.snd).sum) ∧
    (∀ key : String,
      key ∉ ([("a", [((0 : Nat), (1 : Int))]), ("b", [(1, 2)])] :
        List (String × List (Nat × Int))).map Prod.fst →
      registryGet (InitializeDescBodyParts
        [("a", [((0 : Nat), (1 : Int))]), ("b", [(1, 2)])]) key =
        .error .unknownKey)) :=
  ⟨by decide,
    registry_lookup [("a", [((0 : Nat), (1 : Int))]), ("b", [(1, 2)])]
      (by decide)⟩

/-- **C8 counterexample.** A present key whose raw weights sum past
`Int32.MaxValue` yields a sampler whose `MaxWeight` is the wrapped value
`-2147483648`, not the weight sum `2147483648` — refuting the claim as
stated (for every present key). -/
theorem registry_lookup_overflow_cex :
    registryGet (InitializeDescBodyParts
      [("k", [((0 : Nat), (2147483647 : Int)), (0, 1)])]) "k" =
      .ok ⟨-2147483648, [(2147483647, 0), (-2147483648, 0)]⟩ ∧
    (-2147483648 : Int) ≠ 2147483647 + 1 := ⟨rfl, by decide⟩

end SynthDicom
